import Mathlib

/-!
Verification of the TRNG measurement and post-processing scripts.

The bit post-processing functions (`vonNeumannProcessing`, `xorProcessing`,
`residualProcessing`, `iteratedVonNeumann`) are embedded from
`DiffProcessingTechniques.py`, operating on lists of characters just as the
Python code operates on strings: bit pairs are taken at indices 0,2,4,...
while a full pair is available, and each function matches the two-character
pair against its rule table.

The acquisition side (`sampledBits`, `streamingCallbackStep`, `stopDecision`)
is embedded from `trngMeasurementScriptV2.py`: the streaming callback turns a
batch of binarized clock/data samples into extracted bits via rising-edge
detection (`np.diff` followed by `np.where` and fancy indexing), truncates
them to the remaining sample budget in count mode, and appends them; the
acquisition loop evaluates its stop conditions once per iteration.
-/

/-- Non-overlapping adjacent pairs of a list, in order; a trailing unpaired
element yields no pair.  Mirrors the Python loop
`for i in range(0, len(data) - 1, 2)` with `pair = data[i:i+2]`. -/
def pairList : List Char → List (Char × Char)
  | a :: b :: rest => (a, b) :: pairList rest
  | _ => []

/-- Von Neumann processing from `DiffProcessingTechniques.py`: per pair,
`10` gives `0`, `01` gives `1`, anything else gives nothing. -/
def vonNeumannProcessing : List Char → List Char
  | a :: b :: rest =>
    (if a = '1' ∧ b = '0' then ['0']
     else if a = '0' ∧ b = '1' then ['1']
     else []) ++ vonNeumannProcessing rest
  | _ => []

/-- XOR processing from `DiffProcessingTechniques.py`: per pair, `01` or `10`
gives `1`, and the catch-all else branch gives `0`. -/
def xorProcessing : List Char → List Char
  | a :: b :: rest =>
    (if (a = '0' ∧ b = '1') ∨ (a = '1' ∧ b = '0') then ['1'] else ['0'])
      ++ xorProcessing rest
  | _ => []

/-- Residual processing from `DiffProcessingTechniques.py`: per pair, `11`
gives `1`, `00` gives `0`, anything else gives nothing. -/
def residualProcessing : List Char → List Char
  | a :: b :: rest =>
    (if a = '1' ∧ b = '1' then ['1']
     else if a = '0' ∧ b = '0' then ['0']
     else []) ++ residualProcessing rest
  | _ => []

/-- Turn an optional cascade contribution into zero or one output bits. -/
def optToList : Option Char → List Char
  | some c => [c]
  | none => []

/-- Iterated Von Neumann cascade from `DiffProcessingTechniques.py`: per pair
the (svn, sxor, sr) placeholders are set by the if-chain on the pair value and
then appended in the fixed order svn, sxor, sr. -/
def iteratedVonNeumann : List Char → List Char
  | a :: b :: rest =>
    (let bits :=
      if a = '0' ∧ b = '0' then ((none : Option Char), some '0', some '0')
      else if a = '0' ∧ b = '1' then (some '1', some '1', none)
      else if a = '1' ∧ b = '0' then (some '0', some '1', none)
      else if a = '1' ∧ b = '1' then (none, some '0', some '1')
      else (none, none, none)
    optToList bits.1 ++ optToList bits.2.1 ++ optToList bits.2.2)
      ++ iteratedVonNeumann rest
  | _ => []

/-- A list of characters is a bit sequence when every character is 0 or 1. -/
def isBitSeq (l : List Char) : Prop := ∀ c ∈ l, c = '0' ∨ c = '1'

instance (l : List Char) : Decidable (isBitSeq l) :=
  List.decidableBAll (fun c => c = '0' ∨ c = '1') l

/-- Two-step induction on lists, matching the pairwise recursion of the
processing functions. -/
theorem twoStepInduction {α : Type} {P : List α → Prop} (h0 : P [])
    (h1 : ∀ a, P [a]) (h2 : ∀ a b rest, P rest → P (a :: b :: rest)) :
    ∀ l, P l
  | [] => h0
  | [a] => h1 a
  | a :: b :: rest => h2 a b rest (twoStepInduction h0 h1 h2 rest)

theorem pairList_length : ∀ l : List Char, (pairList l).length = l.length / 2 := by
  refine twoStepInduction (by simp [pairList]) (fun a => by simp [pairList]) ?_
  intro a b rest ih
  simp [pairList, ih]
  omega

/-- The per-pair Von Neumann rule as stated in the specification: pair `10`
gives `0`, pair `01` gives `1`, and any other pair gives nothing. -/
def vnRule (p : Char × Char) : List Char :=
  if p = ('1', '0') then ['0'] else if p = ('0', '1') then ['1'] else []

/-- The per-pair residual rule as stated in the specification: pair `11` gives
`1`, pair `00` gives `0`, and any other pair gives nothing. -/
def rRule (p : Char × Char) : List Char :=
  if p = ('1', '1') then ['1'] else if p = ('0', '0') then ['0'] else []

theorem vonNeumannProcessing_flatMap :
    ∀ l : List Char, vonNeumannProcessing l = (pairList l).flatMap vnRule := by
  refine twoStepInduction (by simp [vonNeumannProcessing, pairList])
    (fun a => by simp [vonNeumannProcessing, pairList]) ?_
  intro a b rest ih
  simp only [vonNeumannProcessing, pairList, List.flatMap_cons, ih]
  congr 1
  simp only [vnRule, Prod.mk.injEq]

theorem residualProcessing_flatMap :
    ∀ l : List Char, residualProcessing l = (pairList l).flatMap rRule := by
  refine twoStepInduction (by simp [residualProcessing, pairList])
    (fun a => by simp [residualProcessing, pairList]) ?_
  intro a b rest ih
  simp only [residualProcessing, pairList, List.flatMap_cons, ih]
  congr 1
  simp only [rRule, Prod.mk.injEq]

theorem vnRule_rRule_exclusive : ∀ p : Char × Char, vnRule p = [] ∨ rRule p = [] := by
  intro p
  by_cases h1 : p = ('1', '0')
  · right; simp [rRule, h1]
  · by_cases h2 : p = ('0', '1')
    · right; simp [rRule, h2]
    · left; simp [vnRule, h1, h2]

theorem vonNeumannProcessing_pair_step (a b : Char) (rest : List Char) :
    vonNeumannProcessing (a :: b :: rest) =
      vonNeumannProcessing [a, b] ++ vonNeumannProcessing rest := by
  simp [vonNeumannProcessing]

theorem xorProcessing_pair_step (a b : Char) (rest : List Char) :
    xorProcessing (a :: b :: rest) = xorProcessing [a, b] ++ xorProcessing rest := by
  simp [xorProcessing]

theorem residualProcessing_pair_step (a b : Char) (rest : List Char) :
    residualProcessing (a :: b :: rest) =
      residualProcessing [a, b] ++ residualProcessing rest := by
  simp [residualProcessing]

theorem iteratedVonNeumann_pair_step (a b : Char) (ha : a = '0' ∨ a = '1')
    (hb : b = '0' ∨ b = '1') (rest : List Char) :
    iteratedVonNeumann (a :: b :: rest) =
      (vonNeumannProcessing [a, b] ++ xorProcessing [a, b]
        ++ residualProcessing [a, b]) ++ iteratedVonNeumann rest := by
  rcases ha with rfl | rfl <;> rcases hb with rfl | rfl <;>
    simp [iteratedVonNeumann, vonNeumannProcessing, xorProcessing,
      residualProcessing, optToList]

theorem vonNeumannProcessing_two (a b : Char) :
    vonNeumannProcessing [a, b] = vnRule (a, b) := by
  simp only [vonNeumannProcessing, vnRule, Prod.mk.injEq, List.append_nil]

theorem residualProcessing_two (a b : Char) :
    residualProcessing [a, b] = rRule (a, b) := by
  simp only [residualProcessing, rRule, Prod.mk.injEq, List.append_nil]

theorem mem_pairList : ∀ l : List Char, ∀ p : Char × Char,
    p ∈ pairList l → p.1 ∈ l ∧ p.2 ∈ l := by
  refine twoStepInduction (by simp [pairList]) (fun a => by simp [pairList]) ?_
  intro a b rest ih p hp
  simp only [pairList, List.mem_cons] at hp
  rcases hp with rfl | hp
  · simp
  · have hm := ih p hp
    simp [hm.1, hm.2]

theorem isBitSeq_tail_tail {a b : Char} {rest : List Char}
    (h : isBitSeq (a :: b :: rest)) : isBitSeq rest :=
  fun c hc => h c (by simp [hc])

theorem xorProcessing_length :
    ∀ l : List Char, (xorProcessing l).length = l.length / 2 := by
  refine twoStepInduction (by simp [xorProcessing])
    (fun a => by simp [xorProcessing]) ?_
  intro a b rest ih
  by_cases h : (a = '0' ∧ b = '1') ∨ (a = '1' ∧ b = '0')
  · simp [xorProcessing, h, ih]; omega
  · simp [xorProcessing, h, ih]; omega

theorem vn_add_r_length :
    ∀ l : List Char,
      (vonNeumannProcessing l).length + (residualProcessing l).length ≤ l.length / 2 := by
  refine twoStepInduction (by simp [vonNeumannProcessing, residualProcessing])
    (fun a => by simp [vonNeumannProcessing, residualProcessing]) ?_
  intro a b rest ih
  have h2 : (a :: b :: rest).length / 2 = rest.length / 2 + 1 := by
    simp; omega
  rw [h2]
  by_cases hvn : a = '1' ∧ b = '0'
  · have hr1 : ¬(a = '1' ∧ b = '1') := fun h => by simp [hvn.2] at h
    have hr2 : ¬(a = '0' ∧ b = '0') := fun h => by simp [hvn.1] at h
    simp [vonNeumannProcessing, residualProcessing, hvn, hr1, hr2]; omega
  · by_cases hvn2 : a = '0' ∧ b = '1'
    · have hr1 : ¬(a = '1' ∧ b = '1') := fun h => by simp [hvn2.1] at h
      have hr2 : ¬(a = '0' ∧ b = '0') := fun h => by simp [hvn2.2] at h
      simp [vonNeumannProcessing, residualProcessing, hvn, hvn2, hr1, hr2]; omega
    · by_cases hr : a = '1' ∧ b = '1'
      · simp [vonNeumannProcessing, residualProcessing, hvn, hvn2, hr]; omega
      · by_cases hr2 : a = '0' ∧ b = '0'
        · simp [vonNeumannProcessing, residualProcessing, hvn, hvn2, hr, hr2]; omega
        · simp [vonNeumannProcessing, residualProcessing, hvn, hvn2, hr, hr2]; omega

theorem vonNeumannProcessing_drop_trailing :
    ∀ l : List Char, ∀ c : Char, l.length % 2 = 0 →
      vonNeumannProcessing (l ++ [c]) = vonNeumannProcessing l := by
  refine twoStepInduction ?_ ?_ ?_
  · intro c _
    simp [vonNeumannProcessing]
  · intro a c h
    simp at h
  · intro a b rest ih c h
    have hrest : rest.length % 2 = 0 := by simp at h; omega
    calc vonNeumannProcessing ((a :: b :: rest) ++ [c])
        = vonNeumannProcessing [a, b] ++ vonNeumannProcessing (rest ++ [c]) := by
          simpa using vonNeumannProcessing_pair_step a b (rest ++ [c])
      _ = vonNeumannProcessing [a, b] ++ vonNeumannProcessing rest := by
          rw [ih c hrest]
      _ = vonNeumannProcessing (a :: b :: rest) :=
          (vonNeumannProcessing_pair_step a b rest).symm

theorem xorProcessing_map_of_bits :
    ∀ data : List Char, isBitSeq data →
      xorProcessing data =
        (pairList data).map (fun p => if p.1 = p.2 then '0' else '1') := by
  refine twoStepInduction (by simp [xorProcessing, pairList])
    (fun a => by simp [xorProcessing, pairList]) ?_
  intro a b rest ih h
  have ha := h a (by simp)
  have hb := h b (by simp)
  rw [xorProcessing_pair_step, pairList]
  simp only [List.map_cons]
  rw [ih (isBitSeq_tail_tail h)]
  rcases ha with rfl | rfl <;> rcases hb with rfl | rfl <;> simp [xorProcessing]

theorem vn_add_r_length_eq_of_bits :
    ∀ data : List Char, isBitSeq data →
      (vonNeumannProcessing data).length + (residualProcessing data).length =
        data.length / 2 := by
  refine twoStepInduction (by simp [vonNeumannProcessing, residualProcessing])
    (fun a => by simp [vonNeumannProcessing, residualProcessing]) ?_
  intro a b rest ih h
  have ha := h a (by simp)
  have hb := h b (by simp)
  have ihr := ih (isBitSeq_tail_tail h)
  rw [vonNeumannProcessing_pair_step, residualProcessing_pair_step]
  have hlen : (a :: b :: rest).length / 2 = rest.length / 2 + 1 := by simp; omega
  rw [hlen]
  rcases ha with rfl | rfl <;> rcases hb with rfl | rfl <;>
    simp [vonNeumannProcessing, residualProcessing] <;> omega

theorem iteratedVonNeumann_flatMap_of_bits :
    ∀ data : List Char, isBitSeq data →
      iteratedVonNeumann data =
        (pairList data).flatMap
          (fun p => vonNeumannProcessing [p.1, p.2] ++ xorProcessing [p.1, p.2]
            ++ residualProcessing [p.1, p.2]) := by
  refine twoStepInduction (by simp [iteratedVonNeumann, pairList])
    (fun a => by simp [iteratedVonNeumann, pairList]) ?_
  intro a b rest ih h
  have ha := h a (by simp)
  have hb := h b (by simp)
  rw [iteratedVonNeumann_pair_step a b ha hb, pairList]
  simp only [List.flatMap_cons]
  rw [ih (isBitSeq_tail_tail h)]

/-- Claim C5: for every input bit sequence, the length of the iterated Von
Neumann cascade equals the sum of the lengths of the XOR, Von Neumann and
residual outputs. -/
theorem c5_cascade_length (data : List Char) (h : isBitSeq data) :
    (iteratedVonNeumann data).length =
      (xorProcessing data).length + (vonNeumannProcessing data).length
        + (residualProcessing data).length := by
  induction data using twoStepInduction with
  | h0 => simp [iteratedVonNeumann, xorProcessing, vonNeumannProcessing,
      residualProcessing]
  | h1 a => simp [iteratedVonNeumann, xorProcessing, vonNeumannProcessing,
      residualProcessing]
  | h2 a b rest ih =>
    have ha := h a (by simp)
    have hb := h b (by simp)
    have ihr := ih (isBitSeq_tail_tail h)
    rw [iteratedVonNeumann_pair_step a b ha hb,
      vonNeumannProcessing_pair_step a b rest, xorProcessing_pair_step a b rest,
      residualProcessing_pair_step a b rest]
    simp only [List.length_append, ihr]
    omega

/-- Witness for C5 at the concrete input 0011. -/
theorem c5_cascade_length_witness :
    isBitSeq ['0', '0', '1', '1'] ∧
      (iteratedVonNeumann ['0', '0', '1', '1']).length =
        (xorProcessing ['0', '0', '1', '1']).length
          + (vonNeumannProcessing ['0', '0', '1', '1']).length
          + (residualProcessing ['0', '0', '1', '1']).length :=
  ⟨by decide, c5_cascade_length ['0', '0', '1', '1'] (by decide)⟩

/-- Claim C6: on a bit sequence, the cascade processes pairs in input order,
appending per pair the svn bit (if any), then the sxor bit, then the sr bit
(if any); each pair contributes one or two bits and never both an svn and an
sr bit; on input 0011 the outputs are SVN empty, SXOR 00, SR 01 and cascade
0001. -/
theorem c6_cascade_order (data : List Char) (h : isBitSeq data) :
    iteratedVonNeumann data =
      (pairList data).flatMap
        (fun p => vonNeumannProcessing [p.1, p.2] ++ xorProcessing [p.1, p.2]
          ++ residualProcessing [p.1, p.2]) ∧
    (∀ p ∈ pairList data,
      (vonNeumannProcessing [p.1, p.2] ++ xorProcessing [p.1, p.2]
        ++ residualProcessing [p.1, p.2]).length = 1 ∨
      (vonNeumannProcessing [p.1, p.2] ++ xorProcessing [p.1, p.2]
        ++ residualProcessing [p.1, p.2]).length = 2) ∧
    (∀ p ∈ pairList data,
      vonNeumannProcessing [p.1, p.2] = [] ∨ residualProcessing [p.1, p.2] = []) ∧
    vonNeumannProcessing ['0', '0', '1', '1'] = [] ∧
    xorProcessing ['0', '0', '1', '1'] = ['0', '0'] ∧
    residualProcessing ['0', '0', '1', '1'] = ['0', '1'] ∧
    iteratedVonNeumann ['0', '0', '1', '1'] = ['0', '0', '0', '1'] := by
  refine ⟨iteratedVonNeumann_flatMap_of_bits data h, ?_, ?_, by decide, by decide,
    by decide, by decide⟩
  · intro p hp
    have hm := mem_pairList data p hp
    have h1 := h p.1 hm.1
    have h2 := h p.2 hm.2
    rcases h1 with h1 | h1 <;> rcases h2 with h2 | h2 <;>
      rw [show p = (p.1, p.2) from rfl, h1, h2] <;> right <;> decide
  · intro p hp
    rw [vonNeumannProcessing_two, residualProcessing_two]
    exact vnRule_rRule_exclusive (p.1, p.2)

/-- Witness for C6 at the concrete input 0011. -/
theorem c6_cascade_order_witness :
    iteratedVonNeumann ['0', '0', '1', '1'] =
      (pairList ['0', '0', '1', '1']).flatMap
        (fun p => vonNeumannProcessing [p.1, p.2] ++ xorProcessing [p.1, p.2]
          ++ residualProcessing [p.1, p.2]) ∧
    iteratedVonNeumann ['0', '0', '1', '1'] = ['0', '0', '0', '1'] :=
  ⟨(c6_cascade_order ['0', '0', '1', '1'] (by decide)).1,
   (c6_cascade_order ['0', '0', '1', '1'] (by decide)).2.2.2.2.2.2⟩

/-- Claim C7: Von Neumann processing maps each non-overlapping adjacent pair
by the rule 10 to 0 and 01 to 1, emits nothing for pairs 00 and 11, preserves
pair order, and a trailing unpaired bit of an odd-length input contributes
nothing. -/
theorem c7_von_neumann_rule (data : List Char) (_h : isBitSeq data) :
    vonNeumannProcessing data = (pairList data).flatMap vnRule ∧
    (∀ l : List Char, ∀ c : Char, l.length % 2 = 0 →
      vonNeumannProcessing (l ++ [c]) = vonNeumannProcessing l) :=
  ⟨vonNeumannProcessing_flatMap data, vonNeumannProcessing_drop_trailing⟩

/-- Witness for C7 at the concrete inputs 1001 and 10 with trailing 1. -/
theorem c7_von_neumann_rule_witness :
    vonNeumannProcessing ['1', '0', '0', '1'] =
      (pairList ['1', '0', '0', '1']).flatMap vnRule ∧
    vonNeumannProcessing (['1', '0'] ++ ['1']) = vonNeumannProcessing ['1', '0'] :=
  ⟨(c7_von_neumann_rule ['1', '0', '0', '1'] (by decide)).1,
   (c7_von_neumann_rule ['1', '0', '0', '1'] (by decide)).2 ['1', '0'] '1' (by decide)⟩

/-- Claim C8: XOR processing emits exactly one bit per non-overlapping
adjacent pair, 1 when the bits differ and 0 when they agree, so its output
length is the floor of half the input length. -/
theorem c8_xor_rule (data : List Char) (h : isBitSeq data) :
    xorProcessing data =
      (pairList data).map (fun p => if p.1 = p.2 then '0' else '1') ∧
    (xorProcessing data).length = data.length / 2 :=
  ⟨xorProcessing_map_of_bits data h, xorProcessing_length data⟩

/-- Witness for C8 at the concrete input 01101 of odd length 5. -/
theorem c8_xor_rule_witness :
    xorProcessing ['0', '1', '1', '0', '1'] =
      (pairList ['0', '1', '1', '0', '1']).map
        (fun p => if p.1 = p.2 then '0' else '1') ∧
    (xorProcessing ['0', '1', '1', '0', '1']).length = 5 / 2 :=
  c8_xor_rule ['0', '1', '1', '0', '1'] (by decide)

/-- Claim C9: residual processing maps pair 11 to 1 and pair 00 to 0 and
emits nothing otherwise; the Von Neumann and residual output lengths sum to
at most half the input length, and no pair contributes to both. -/
theorem c9_residual_rule (data : List Char) :
    residualProcessing data = (pairList data).flatMap rRule ∧
    (vonNeumannProcessing data).length + (residualProcessing data).length ≤
      data.length / 2 ∧
    (∀ p : Char × Char, vnRule p = [] ∨ rRule p = []) :=
  ⟨residualProcessing_flatMap data, vn_add_r_length data, vnRule_rRule_exclusive⟩

/-- Claim C10: for arbitrary character content, XOR processing emits `0` for
any pair that is not exactly 01 or 10 and its output length is the floor of
half the input length; Von Neumann and residual processing emit nothing for
pairs outside their rule tables; and on a bit sequence every pair feeds
exactly one of SVN and SR, so their lengths sum to exactly the floor of half
the input length. -/
theorem c10_catch_all (data : List Char) (h : isBitSeq data) :
    (∀ l : List Char, (xorProcessing l).length = l.length / 2) ∧
    (∀ a b : Char, ∀ rest : List Char,
      ¬((a = '0' ∧ b = '1') ∨ (a = '1' ∧ b = '0')) →
        xorProcessing (a :: b :: rest) = '0' :: xorProcessing rest) ∧
    (∀ a b : Char, ∀ rest : List Char,
      ¬(a = '1' ∧ b = '0') → ¬(a = '0' ∧ b = '1') →
        vonNeumannProcessing (a :: b :: rest) = vonNeumannProcessing rest) ∧
    (∀ a b : Char, ∀ rest : List Char,
      ¬(a = '1' ∧ b = '1') → ¬(a = '0' ∧ b = '0') →
        residualProcessing (a :: b :: rest) = residualProcessing rest) ∧
    (vonNeumannProcessing data).length + (residualProcessing data).length =
      data.length / 2 := by
  refine ⟨xorProcessing_length, ?_, ?_, ?_, vn_add_r_length_eq_of_bits data h⟩
  · intro a b rest hab
    simp [xorProcessing, hab]
  · intro a b rest h1 h2
    simp [vonNeumannProcessing, h1, h2]
  · intro a b rest h1 h2
    simp [residualProcessing, h1, h2]

/-- Witness for C10 at a concrete non-binary input and the bit input 0110. -/
theorem c10_catch_all_witness :
    (xorProcessing ['a', 'b', 'c']).length = 3 / 2 ∧
    xorProcessing ['a', 'b', 'c'] = '0' :: xorProcessing ['c'] ∧
    vonNeumannProcessing ['a', 'b', 'c'] = vonNeumannProcessing ['c'] ∧
    residualProcessing ['a', 'b', 'c'] = residualProcessing ['c'] ∧
    (vonNeumannProcessing ['0', '1', '1', '0']).length
      + (residualProcessing ['0', '1', '1', '0']).length = 4 / 2 := by
  have h := c10_catch_all ['0', '1', '1', '0'] (by decide)
  exact ⟨h.1 ['a', 'b', 'c'], h.2.1 'a' 'b' ['c'] (by decide),
    h.2.2.1 'a' 'b' ['c'] (by decide) (by decide),
    h.2.2.2.1 'a' 'b' ['c'] (by decide) (by decide), h.2.2.2.2⟩

/-- Streaming acquisition session state: the `samplesCollected` counter and
the contents of the output file. -/
structure CallbackState where
  samplesCollected : Nat
  output : List Int
deriving DecidableEq

/-- Successive differences of a list, as computed by `np.diff`. -/
def diffList : List Int → List Int
  | a :: b :: rest => (b - a) :: diffList (b :: rest)
  | _ => []

/-- Ascending indices where the difference of the binarized clock equals 1,
as computed by `np.where(np.diff(clkBinary) == 1)[0]` in the callback. -/
def risingEdges (clkBinary : List Int) : List Nat :=
  (List.range (diffList clkBinary).length).filter
    (fun j => decide ((diffList clkBinary).getD j 0 = 1))

/-- The extracted bits of one batch, `dataBinary[risingEdges]` from
`streamingCallback`. -/
def sampledBits (clkBinary dataBinary : List Int) : List Int :=
  (risingEdges clkBinary).map (fun j => dataBinary.getD j 0)

/-- The rising-edge index set as worded in the specification: the indices i
with 1 ≤ i < n and clockBinary[i] − clockBinary[i-1] = 1, in ascending
order. -/
def specRisingIndices (clkBinary : List Int) : List Nat :=
  (List.range clkBinary.length).filter
    (fun i => decide (1 ≤ i) &&
      decide (clkBinary.getD i 0 - clkBinary.getD (i - 1) 0 = 1))

/-- The sampler output as worded in the specification: dataBinary[i] for each
rising-edge index i, in ascending order. -/
def specSampledBits (clkBinary dataBinary : List Int) : List Int :=
  (specRisingIndices clkBinary).map (fun i => dataBinary.getD i 0)

/-- Python list slicing `l[:r]` with an integer bound, including the
negative-bound case in which the last `|r|` elements are cut off. -/
def pythonTake {α : Type} (r : Int) (l : List α) : List α :=
  if 0 ≤ r then l.take r.toNat else l.take (l.length - r.natAbs)

/-- One invocation of `streamingCallback` on a batch of binarized samples: a
non-overflow batch contributes its rising-edge bits, truncated in capture
mode "samples" to the remaining budget `totalSamples - samplesCollected`,
and the bits are appended to the file and counted; an overflow batch is
skipped entirely. -/
def streamingCallbackStep (captureMode : String) (totalSamples : Nat)
    (overflow : Int) (clkBinary dataBinary : List Int)
    (s : CallbackState) : CallbackState :=
  if overflow = 0 then
    let bits := sampledBits clkBinary dataBinary
    let bits' := if captureMode = "samples"
      then pythonTake ((totalSamples : Int) - (s.samplesCollected : Int)) bits
      else bits
    { samplesCollected := s.samplesCollected + bits'.length
      output := s.output ++ bits' }
  else s

/-- A whole session of callback invocations, in order; each batch is an
overflow flag and the binarized clock and data sample lists. -/
def runBatches (captureMode : String) (totalSamples : Nat)
    (batches : List (Int × List Int × List Int)) (s : CallbackState) :
    CallbackState :=
  batches.foldl
    (fun st b => streamingCallbackStep captureMode totalSamples b.1 b.2.1 b.2.2 st)
    s

/-- The stop-condition check performed once per iteration of the acquisition
loop in `collectData`: in mode "time" only the elapsed-time test runs, in
mode "samples" only the collected-count test runs, and the no-signal-timeout
test of the final elif branch runs only for any other mode value. -/
def stopDecision (mode : String) (elapsedTime durationSeconds : ℚ)
    (samplesCollected totalSamples : Nat)
    (now lastSignalTime noSignalTimeoutSeconds : ℚ) : Bool :=
  if mode = "time" then decide (elapsedTime ≥ durationSeconds)
  else if mode = "samples" then decide (samplesCollected ≥ totalSamples)
  else decide (now - lastSignalTime ≥ noSignalTimeoutSeconds)

theorem diffList_length : ∀ l : List Int, (diffList l).length = l.length - 1
  | [] => rfl
  | [_] => rfl
  | a :: b :: rest => by
    have ih := diffList_length (b :: rest)
    simp only [diffList, List.length_cons] at ih ⊢
    omega

theorem diffList_getD : ∀ (l : List Int) (j : Nat), j + 1 < l.length →
    (diffList l).getD j 0 = l.getD (j + 1) 0 - l.getD j 0
  | [], j, h => by simp at h
  | [_], j, h => by simp at h
  | _ :: b :: rest, 0, _ => by simp [diffList, List.getD]
  | a :: b :: rest, j + 1, h => by
    have ih := diffList_getD (b :: rest) j (by simp at h ⊢; omega)
    simpa [diffList, List.getD] using ih

theorem specRisingIndices_eq_map (clkBinary : List Int) :
    specRisingIndices clkBinary = (risingEdges clkBinary).map (fun j => j + 1) := by
  unfold specRisingIndices risingEdges
  rcases clkBinary with _ | ⟨a, rest⟩
  · rfl
  · have hlen : (diffList (a :: rest)).length = rest.length := by
      simpa using diffList_length (a :: rest)
    rw [hlen, show (a :: rest).length = rest.length + 1 from rfl,
      List.range_succ_eq_map]
    rw [List.filter_cons]
    simp only [Nat.le_zero, decide_eq_true_eq, Bool.false_and, if_neg,
      Bool.and_eq_true, Nat.succ_ne_zero]
    rw [List.filter_map]
    refine congrArg (List.map Nat.succ) (List.filter_congr ?_)
    intro j hj
    have hjlt : j < rest.length := List.mem_range.mp hj
    have hd := diffList_getD (a :: rest) j (by simp; omega)
    simp only [Function.comp]
    rw [show Nat.succ j = j + 1 from rfl]
    simp only [Nat.add_sub_cancel, hd]
    simp

/-- Claim C1 counterexample: on the specification's own example, clock binary
0,1,0,1 and data binary 1,0,1,0, the rule "output dataBinary[i] for every i
with clockBinary[i] − clockBinary[i-1] = 1" predicts 0,0, but the callback
computes dataBinary over the `np.diff` index positions and extracts 1,1. -/
theorem c1_counterexample :
    specSampledBits [0, 1, 0, 1] [1, 0, 1, 0] = [0, 0] ∧
    sampledBits [0, 1, 0, 1] [1, 0, 1, 0] = [1, 1] ∧
    sampledBits [0, 1, 0, 1] [1, 0, 1, 0] ≠
      specSampledBits [0, 1, 0, 1] [1, 0, 1, 0] := by
  refine ⟨by decide, by decide, by decide⟩

/-- Claim C1 amended: for every batch of at least two samples, the sampler
outputs dataBinary[i − 1] (the sample just before the edge) for every index i
with clockBinary[i] − clockBinary[i-1] = 1 (1 ≤ i < n), in ascending order
of i, exactly one output bit per detected rising edge. -/
theorem c1_sampler_pre_edge (clkBinary dataBinary : List Int)
    (_h : 2 ≤ clkBinary.length) :
    sampledBits clkBinary dataBinary =
      (specRisingIndices clkBinary).map (fun i => dataBinary.getD (i - 1) 0) := by
  rw [specRisingIndices_eq_map, List.map_map]
  unfold sampledBits
  refine List.map_congr_left ?_
  intro j hj
  simp [Function.comp]

/-- Witness for the amended C1 at clock binary 0,1,0,1 and data binary
1,0,1,0. -/
theorem c1_sampler_pre_edge_witness :
    sampledBits [0, 1, 0, 1] [1, 0, 1, 0] =
      (specRisingIndices [0, 1, 0, 1]).map
        (fun i => ([1, 0, 1, 0] : List Int).getD (i - 1) 0) :=
  c1_sampler_pre_edge [0, 1, 0, 1] [1, 0, 1, 0] (by decide)

/-- Claim C2 counterexample: in capture mode "samples", with the no-signal
condition now − lastSignalTime ≥ noSignalTimeoutSeconds long satisfied and the
sample target far from met, the stop check of `collectData` does not make the
session terminal: the timeout test sits in an elif branch that is never
reached in this mode. -/
theorem c2_counterexample :
    ((100 : ℚ) - 0 ≥ 3) ∧
    stopDecision "samples" 100 10 0 10 100 0 3 = false := by
  constructor
  · norm_num
  · rfl

/-- Claim C2 amended: the stop check of `collectData` is mode-dependent: in
mode "time" the session becomes terminal exactly when elapsed ≥ duration, in
mode "samples" exactly when the collected count has reached the target, and
the no-signal timeout test is reached only for mode values other than "time"
and "samples". -/
theorem c2_stop_mode_dependent (elapsedTime durationSeconds : ℚ)
    (samplesCollected totalSamples : Nat) (now lastSignalTime th : ℚ) :
    stopDecision "time" elapsedTime durationSeconds samplesCollected
        totalSamples now lastSignalTime th = decide (elapsedTime ≥ durationSeconds) ∧
    stopDecision "samples" elapsedTime durationSeconds samplesCollected
        totalSamples now lastSignalTime th = decide (samplesCollected ≥ totalSamples) ∧
    ∀ mode : String, mode ≠ "time" → mode ≠ "samples" →
      stopDecision mode elapsedTime durationSeconds samplesCollected
        totalSamples now lastSignalTime th = decide (now - lastSignalTime ≥ th) := by
  refine ⟨rfl, rfl, ?_⟩
  intro mode h1 h2
  simp [stopDecision, h1, h2]

/-- Witness for the amended C2 at a concrete stuck-source configuration. -/
theorem c2_stop_mode_dependent_witness :
    stopDecision "time" 5 10 0 10 100 0 3 = decide ((5 : ℚ) ≥ 10) ∧
    stopDecision "samples" 5 10 0 10 100 0 3 = decide ((0 : Nat) ≥ 10) ∧
    stopDecision "count" 5 10 0 10 100 0 3 = decide ((100 : ℚ) - 0 ≥ 3) := by
  have h := c2_stop_mode_dependent 5 10 0 10 100 0 3
  exact ⟨h.1, h.2.1, h.2.2 "count" (by decide) (by decide)⟩

theorem streamingCallbackStep_cap (totalSamples : Nat) (overflow : Int)
    (clkBinary dataBinary : List Int) (s : CallbackState)
    (hsc : s.samplesCollected ≤ totalSamples)
    (hlen : s.output.length = s.samplesCollected) :
    (streamingCallbackStep "samples" totalSamples overflow clkBinary
        dataBinary s).samplesCollected ≤ totalSamples ∧
    (streamingCallbackStep "samples" totalSamples overflow clkBinary
        dataBinary s).output.length =
      (streamingCallbackStep "samples" totalSamples overflow clkBinary
        dataBinary s).samplesCollected := by
  by_cases hov : overflow = 0
  · subst hov
    have hr : (0 : Int) ≤ (totalSamples : Int) - (s.samplesCollected : Int) := by
      omega
    have htake : (pythonTake ((totalSamples : Int) - (s.samplesCollected : Int))
        (sampledBits clkBinary dataBinary)).length ≤
        totalSamples - s.samplesCollected := by
      rw [pythonTake, if_pos hr, List.length_take]
      have : ((totalSamples : Int) - (s.samplesCollected : Int)).toNat =
          totalSamples - s.samplesCollected := by omega
      omega
    have hstep : streamingCallbackStep "samples" totalSamples 0 clkBinary
        dataBinary s =
        { samplesCollected := s.samplesCollected +
            (pythonTake ((totalSamples : Int) - (s.samplesCollected : Int))
              (sampledBits clkBinary dataBinary)).length
          output := s.output ++
            pythonTake ((totalSamples : Int) - (s.samplesCollected : Int))
              (sampledBits clkBinary dataBinary) } := by
      simp [streamingCallbackStep]
    rw [hstep]
    constructor
    · simp only []
      omega
    · simp [hlen]
  · simp [streamingCallbackStep, hov, hsc, hlen]

theorem runBatches_cap : ∀ (batches : List (Int × List Int × List Int))
    (totalSamples : Nat) (s : CallbackState),
    s.samplesCollected ≤ totalSamples →
    s.output.length = s.samplesCollected →
    (runBatches "samples" totalSamples batches s).samplesCollected ≤ totalSamples ∧
    (runBatches "samples" totalSamples batches s).output.length =
      (runBatches "samples" totalSamples batches s).samplesCollected
  | [], _, s, h1, h2 => ⟨h1, h2⟩
  | b :: bs, total, s, h1, h2 => by
    have hstep := streamingCallbackStep_cap total b.1 b.2.1 b.2.2 s h1 h2
    have hrest := runBatches_cap bs total
      (streamingCallbackStep "samples" total b.1 b.2.1 b.2.2 s) hstep.1 hstep.2
    simpa [runBatches, List.foldl_cons] using hrest

/-- Claim C3: in capture mode "samples", starting from the initial session
state, after any sequence of batches the collected count never exceeds the
requested cap and always equals the length of the persisted bit sequence,
because each batch is truncated to the remaining budget before appending. -/
theorem c3_cap_invariant (totalSamples : Nat)
    (batches : List (Int × List Int × List Int)) :
    (runBatches "samples" totalSamples batches
      ⟨0, []⟩).samplesCollected ≤ totalSamples ∧
    (runBatches "samples" totalSamples batches ⟨0, []⟩).output.length =
      (runBatches "samples" totalSamples batches ⟨0, []⟩).samplesCollected :=
  runBatches_cap batches totalSamples ⟨0, []⟩ (Nat.zero_le _) rfl

/-- Claim C4: a batch whose overflow flag is nonzero contributes zero bits,
leaves `samplesCollected` and the output unchanged (the state is returned as
is, with no error), and the subsequent stop check is exactly what it would
have been without the batch. -/
theorem c4_overflow_skip (captureMode : String) (totalSamples : Nat)
    (overflow : Int) (clkBinary dataBinary : List Int) (s : CallbackState)
    (hov : overflow ≠ 0) (elapsedTime durationSeconds now lastSignalTime th : ℚ) :
    streamingCallbackStep captureMode totalSamples overflow clkBinary
        dataBinary s = s ∧
    stopDecision captureMode elapsedTime durationSeconds
        (streamingCallbackStep captureMode totalSamples overflow clkBinary
          dataBinary s).samplesCollected totalSamples now lastSignalTime th =
      stopDecision captureMode elapsedTime durationSeconds
        s.samplesCollected totalSamples now lastSignalTime th := by
  have h1 : streamingCallbackStep captureMode totalSamples overflow clkBinary
      dataBinary s = s := by
    simp [streamingCallbackStep, hov]
  exact ⟨h1, by rw [h1]⟩

/-- Witness for C4 at a concrete overflowed batch. -/
theorem c4_overflow_skip_witness :
    streamingCallbackStep "samples" 10 1 [0, 1, 0] [1, 1, 1] ⟨3, [1, 1, 1]⟩ =
      ⟨3, [1, 1, 1]⟩ ∧
    stopDecision "samples" 0 10
        (streamingCallbackStep "samples" 10 1 [0, 1, 0] [1, 1, 1]
          ⟨3, [1, 1, 1]⟩).samplesCollected 10 0 0 3 =
      stopDecision "samples" 0 10 3 10 0 0 3 :=
  c4_overflow_skip "samples" 10 1 [0, 1, 0] [1, 1, 1] ⟨3, [1, 1, 1]⟩
    (by decide) 0 10 0 0 3
